import Mathlib

/-!
Shallow embedding of `src/control/group/neon128.rs`, the NEON (128-bit)
backend of the SwissTable control-group abstraction.

A 128-bit NEON vector (`uint8x16_t`) is modelled as a `List Nat` of its 16
byte lanes (each lane a value `< 256`).  The Rust `BitMaskWord` is `u16`
with `BITMASK_STRIDE = 1`; here bitmask words are plain `Nat`, with
`Nat.testBit w i` reading lane `i` of the mask.
-/

namespace Neon128

/-- Modelled from the spec: `Tag::EMPTY` is the byte `0b1111_1111`.  The
`Tag` type itself lives in `src/control/tag.rs`, which is not part of the
provided source; its canonical values are taken from the spec. -/
def Tag.EMPTY : Nat := 0xFF

/-- Modelled from the spec: `Tag::DELETED` (tombstone) is the byte
`0b1000_0000`. -/
def Tag.DELETED : Nat := 0x80

/-- A byte lane reinterpreted as a signed 8-bit integer, as done by
`vreinterpretq_s8_u8`. -/
def s8 (x : Nat) : Int := if x < 128 then (x : Int) else (x : Int) - 256

/-- `const POWERS: [u8; 16] = [1, 2, 4, 8, 16, 32, 64, 128, 1, 2, 4, 8, 16, 32, 64, 128]`. -/
def POWERS : List Nat := [1, 2, 4, 8, 16, 32, 64, 128, 1, 2, 4, 8, 16, 32, 64, 128]

/-- `fn cmp_to_word(cmp: uint8x16_t) -> BitMaskWord`.

The source ANDs the comparison vector with `POWERS` (`vandq_u8`), then
performs three widening pairwise additions (`vpaddlq_u8`, `vpaddlq_u16`,
`vpaddlq_u32`) yielding two `u64` lanes holding the sums of masked lanes
0-7 and 8-15, extracts byte 0 of each `u64` (`vst1q_lane_u8` at indices 0
and 8 of the `u8` reinterpretation, i.e. each sum mod 256), and assembles
them little-endian into a `u16`. -/
def cmp_to_word (cmp : List Nat) : Nat :=
  ((List.zipWith (fun a b => a &&& b) cmp POWERS).take 8).sum % 256 +
    256 * (((List.zipWith (fun a b => a &&& b) cmp POWERS).drop 8).sum % 256)

/-- `vdupq_n_u8`: a vector with all 16 lanes equal to `t`. -/
def vdupq_n_u8 (t : Nat) : List Nat := List.replicate 16 t

/-- `vceqq_u8`: lane-wise equality compare; a lane is `0xFF` on equality,
`0x00` otherwise. -/
def vceqq_u8 (a b : List Nat) : List Nat :=
  List.zipWith (fun x y => if x = y then 255 else 0) a b

/-- `vcltzq_s8` composed with `vreinterpretq_s8_u8`: lane is `0xFF` when the
lane's signed-byte value is `< 0`, else `0x00`. -/
def vcltzq_s8 (a : List Nat) : List Nat :=
  a.map fun x => if s8 x < 0 then 255 else 0

/-- `vcgezq_s8` composed with `vreinterpretq_s8_u8`: lane is `0xFF` when the
lane's signed-byte value is `≥ 0`, else `0x00`. -/
def vcgezq_s8 (a : List Nat) : List Nat :=
  a.map fun x => if 0 ≤ s8 x then 255 else 0

/-- `vorrq_u8`: lane-wise bitwise OR. -/
def vorrq_u8 (a b : List Nat) : List Nat :=
  List.zipWith (fun x y => x ||| y) a b

namespace Group

/-- `pub(crate) const WIDTH: usize = mem::size_of::<Self>();` — the byte
size of `uint8x16_t`, i.e. 16. -/
def WIDTH : Nat := 16

/-- `Group::static_empty()`: the statically allocated all-`EMPTY` block of
`WIDTH` tags (the `static_empty` address-alignment guarantee is a memory
layout property, not modelled here). -/
def static_empty : List Nat := List.replicate WIDTH Tag.EMPTY

/-- `Group::match_tag`: `vceqq_u8(self.0, vdupq_n_u8(tag.0))` fed through
`cmp_to_word`. -/
def match_tag (g : List Nat) (t : Nat) : Nat :=
  cmp_to_word (vceqq_u8 g (vdupq_n_u8 t))

/-- `Group::match_empty`: `self.match_tag(Tag::EMPTY)`. -/
def match_empty (g : List Nat) : Nat := match_tag g Tag.EMPTY

/-- `Group::match_empty_or_deleted`: `vcltzq_s8(vreinterpretq_s8_u8(self.0))`
fed through `cmp_to_word`. -/
def match_empty_or_deleted (g : List Nat) : Nat := cmp_to_word (vcltzq_s8 g)

/-- `Group::match_full`: `vcgezq_s8(vreinterpretq_s8_u8(self.0))` fed
through `cmp_to_word`. -/
def match_full (g : List Nat) : Nat := cmp_to_word (vcgezq_s8 g)

/-- `Group::convert_special_to_empty_and_full_to_deleted`:
`vorrq_u8(vcltzq_s8(vreinterpretq_s8_u8(self.0)), vdupq_n_u8(0x80))`. -/
def convert_special_to_empty_and_full_to_deleted (g : List Nat) : List Nat :=
  vorrq_u8 (vcltzq_s8 g) (vdupq_n_u8 0x80)

end Group

/-! ### Bitmask infrastructure -/

/-- The number whose binary digits, least significant first, are the given
list of booleans. -/
def bitsToNat : List Bool → Nat
  | [] => 0
  | b :: c => b.toNat + 2 * bitsToNat c

theorem bitsToNat_testBit (c : List Bool) (i : Nat) :
    (bitsToNat c).testBit i = c.getD i false := by
  induction c generalizing i with
  | nil => simp [bitsToNat]
  | cons b c ih =>
    cases i with
    | zero =>
      cases b <;>
        simp [bitsToNat, Nat.testBit_zero, Nat.add_mul_mod_self_left]
    | succ i =>
      rw [Nat.testBit_succ]
      have hdiv : (b.toNat + 2 * bitsToNat c) / 2 = bitsToNat c := by
        have hb := Bool.toNat_le b
        omega
      rw [bitsToNat, hdiv, ih]
      simp

theorem cond255 (b : Bool) : (bif b then (255 : Nat) else 0) = 255 * b.toNat := by
  cases b <;> simp

theorem toNat_mul_and (b : Bool) (k : Nat) :
    ((255 * b.toNat) &&& k) = (255 &&& k) * b.toNat := by
  cases b <;> simp [Nat.zero_and]

theorem cmp_to_word_ofBits (c : List Bool) (h : c.length = 16) :
    cmp_to_word (c.map fun b => bif b then 255 else 0) = bitsToNat c := by
  rcases c with _ | ⟨b0, c⟩; · exact absurd h (by simp)
  rcases c with _ | ⟨b1, c⟩; · exact absurd h (by simp)
  rcases c with _ | ⟨b2, c⟩; · exact absurd h (by simp)
  rcases c with _ | ⟨b3, c⟩; · exact absurd h (by simp)
  rcases c with _ | ⟨b4, c⟩; · exact absurd h (by simp)
  rcases c with _ | ⟨b5, c⟩; · exact absurd h (by simp)
  rcases c with _ | ⟨b6, c⟩; · exact absurd h (by simp)
  rcases c with _ | ⟨b7, c⟩; · exact absurd h (by simp)
  rcases c with _ | ⟨b8, c⟩; · exact absurd h (by simp)
  rcases c with _ | ⟨b9, c⟩; · exact absurd h (by simp)
  rcases c with _ | ⟨b10, c⟩; · exact absurd h (by simp)
  rcases c with _ | ⟨b11, c⟩; · exact absurd h (by simp)
  rcases c with _ | ⟨b12, c⟩; · exact absurd h (by simp)
  rcases c with _ | ⟨b13, c⟩; · exact absurd h (by simp)
  rcases c with _ | ⟨b14, c⟩; · exact absurd h (by simp)
  rcases c with _ | ⟨b15, c⟩; · exact absurd h (by simp)
  obtain rfl : c = [] := by
    have hl : c.length = 0 := by simpa using h
    exact List.length_eq_zero.mp hl
  have t0 := Bool.toNat_le b0
  have t1 := Bool.toNat_le b1
  have t2 := Bool.toNat_le b2
  have t3 := Bool.toNat_le b3
  have t4 := Bool.toNat_le b4
  have t5 := Bool.toNat_le b5
  have t6 := Bool.toNat_le b6
  have t7 := Bool.toNat_le b7
  have t8 := Bool.toNat_le b8
  have t9 := Bool.toNat_le b9
  have t10 := Bool.toNat_le b10
  have t11 := Bool.toNat_le b11
  have t12 := Bool.toNat_le b12
  have t13 := Bool.toNat_le b13
  have t14 := Bool.toNat_le b14
  have t15 := Bool.toNat_le b15
  simp only [List.map_cons, List.map_nil, cond255, cmp_to_word, POWERS,
    List.zipWith_cons_cons, List.zipWith_nil_right, List.take, List.drop,
    List.sum_cons, List.sum_nil, bitsToNat, toNat_mul_and]
  simp only [show (255 : Nat) &&& 1 = 1 by decide, show (255 : Nat) &&& 2 = 2 by decide,
    show (255 : Nat) &&& 4 = 4 by decide, show (255 : Nat) &&& 8 = 8 by decide,
    show (255 : Nat) &&& 16 = 16 by decide, show (255 : Nat) &&& 32 = 32 by decide,
    show (255 : Nat) &&& 64 = 64 by decide, show (255 : Nat) &&& 128 = 128 by decide]
  omega

theorem zipWith_replicate (f : Nat → Nat → Nat) (t : Nat) (g : List Nat) (n : Nat)
    (h : g.length = n) :
    List.zipWith f g (List.replicate n t) = g.map fun x => f x t := by
  induction g generalizing n with
  | nil => simp
  | cons a g ih =>
    cases n with
    | zero => simp at h
    | succ n =>
      rw [List.replicate_succ, List.zipWith_cons_cons, List.map_cons,
        ih n (by simpa using h)]

theorem ite_eq_cond_decide (p : Nat → Prop) [DecidablePred p] :
    (fun x => if p x then (255 : Nat) else 0)
      = fun x => bif decide (p x) then 255 else 0 := by
  funext x
  by_cases hp : p x <;> simp [hp]

theorem cmp_to_word_testBit (p : Nat → Prop) [DecidablePred p] (g : List Nat)
    (h : g.length = 16) (i : Nat) (hi : i < 16) :
    (cmp_to_word (g.map fun x => if p x then 255 else 0)).testBit i
      = decide (p (g.getD i 0)) := by
  rw [ite_eq_cond_decide p]
  have h1 : (g.map fun x => bif decide (p x) then (255 : Nat) else 0)
      = (g.map fun x => decide (p x)).map fun b => bif b then 255 else 0 := by
    rw [List.map_map]
    rfl
  rw [h1, cmp_to_word_ofBits _ (by simpa using h), bitsToNat_testBit]
  have hi2 : i < g.length := by omega
  rw [List.getD_eq_getElem _ _ (by simpa using hi2), List.getElem_map,
    List.getD_eq_getElem _ _ hi2]

theorem cmp_to_word_lt (cmp : List Nat) : cmp_to_word cmp < 65536 := by
  unfold cmp_to_word
  omega

theorem cmp_to_word_testBit_high (cmp : List Nat) (i : Nat) (hi : 16 ≤ i) :
    (cmp_to_word cmp).testBit i = false := by
  apply Nat.testBit_lt_two_pow
  calc cmp_to_word cmp < 65536 := cmp_to_word_lt cmp
    _ = 2 ^ 16 := by norm_num
    _ ≤ 2 ^ i := Nat.pow_le_pow_right (by norm_num) hi

theorem match_tag_testBit (g : List Nat) (t : Nat) (h : g.length = 16)
    (i : Nat) (hi : i < 16) :
    (Group.match_tag g t).testBit i = decide (g.getD i 0 = t) := by
  unfold Group.match_tag vceqq_u8 vdupq_n_u8
  rw [zipWith_replicate _ t g 16 h]
  exact cmp_to_word_testBit (fun x => x = t) g h i hi

theorem match_eod_testBit (g : List Nat) (h : g.length = 16) (i : Nat) (hi : i < 16) :
    (Group.match_empty_or_deleted g).testBit i = decide (s8 (g.getD i 0) < 0) := by
  unfold Group.match_empty_or_deleted vcltzq_s8
  exact cmp_to_word_testBit (fun x => s8 x < 0) g h i hi

theorem match_full_testBit (g : List Nat) (h : g.length = 16) (i : Nat) (hi : i < 16) :
    (Group.match_full g).testBit i = decide (0 ≤ s8 (g.getD i 0)) := by
  unfold Group.match_full vcgezq_s8
  exact cmp_to_word_testBit (fun x => 0 ≤ s8 x) g h i hi

theorem s8_neg_decide (x : Nat) (hx : x < 256) :
    decide (s8 x < 0) = x.testBit 7 := by
  rw [Nat.testBit_to_div_mod, decide_eq_decide]
  unfold s8
  by_cases h7 : x < 128 <;> simp [h7] <;> omega

theorem convert_eq_map (g : List Nat) (h : g.length = 16) :
    Group.convert_special_to_empty_and_full_to_deleted g
      = g.map fun x => (if s8 x < 0 then 255 else 0) ||| 128 := by
  unfold Group.convert_special_to_empty_and_full_to_deleted vorrq_u8 vcltzq_s8 vdupq_n_u8
  rw [zipWith_replicate _ _ _ 16 (by simpa using h), List.map_map]
  rfl

theorem convert_getD (g : List Nat) (h : g.length = 16) (i : Nat) (hi : i < 16) :
    (Group.convert_special_to_empty_and_full_to_deleted g).getD i 0
      = if s8 (g.getD i 0) < 0 then 255 else 128 := by
  rw [convert_eq_map g h]
  have hi2 : i < g.length := by omega
  rw [List.getD_eq_getElem _ _ (by simpa using hi2), List.getElem_map,
    ← List.getD_eq_getElem g 0 hi2]
  split <;> decide

/-! ### Claims -/

/-- C1: for a `Group` built from an arbitrary `WIDTH`-length array of tags,
`match_empty()` sets exactly the lanes whose tag equals `EMPTY`: no other
lane is set, and every `EMPTY` lane is set. -/
theorem match_empty_exact (g : List Nat) (h : g.length = 16)
    (i : Nat) (hi : i < 16) :
    (Group.match_empty g).testBit i = true ↔ g.getD i 0 = Tag.EMPTY := by
  unfold Group.match_empty
  rw [match_tag_testBit g Tag.EMPTY h i hi]
  simp

theorem match_empty_exact_witness :
    (Group.match_empty
        [255, 3, 128, 255, 7, 9, 200, 255, 0, 1, 2, 4, 8, 16, 32, 64]).testBit 0 = true
    ↔ ([255, 3, 128, 255, 7, 9, 200, 255, 0, 1, 2, 4, 8, 16, 32, 64].getD 0 0
        = Tag.EMPTY) :=
  match_empty_exact _ (by decide) 0 (by decide)

/-- C2: for every `Group`, `match_full()` is, lane by lane over the 16
valid lanes, the complement of `match_empty_or_deleted()`: every lane is
set in exactly one of the two masks. -/
theorem match_full_complement (g : List Nat) (h : g.length = 16)
    (i : Nat) (hi : i < 16) :
    (Group.match_full g).testBit i
      = !(Group.match_empty_or_deleted g).testBit i := by
  rw [match_full_testBit g h i hi, match_eod_testBit g h i hi]
  rcases lt_or_le (s8 (g.getD i 0)) 0 with hs | hs
  · rw [decide_eq_false (not_le.mpr hs), decide_eq_true hs]
    rfl
  · rw [decide_eq_true hs, decide_eq_false (not_lt.mpr hs)]
    rfl

theorem match_full_complement_witness :
    (Group.match_full
        [255, 3, 128, 255, 7, 9, 200, 255, 0, 1, 2, 4, 8, 16, 32, 64]).testBit 1
      = !(Group.match_empty_or_deleted
          [255, 3, 128, 255, 7, 9, 200, 255, 0, 1, 2, 4, 8, 16, 32, 64]).testBit 1 :=
  match_full_complement _ (by decide) 1 (by decide)

/-- C3: `match_empty_or_deleted()` sets a lane iff the top bit of the
lane's tag byte is 1 (EMPTY or DELETED), and `match_full()` sets a lane iff
the top bit is 0. -/
theorem match_masks_top_bit (g : List Nat) (h : g.length = 16)
    (hb : ∀ x ∈ g, x < 256) (i : Nat) (hi : i < 16) :
    (Group.match_empty_or_deleted g).testBit i = (g.getD i 0).testBit 7
    ∧ (Group.match_full g).testBit i = !(g.getD i 0).testBit 7 := by
  have hi2 : i < g.length := by omega
  have hx : g.getD i 0 < 256 := by
    have hmem : g.getD i 0 ∈ g := by
      rw [List.getD_eq_getElem _ _ hi2]
      exact List.getElem_mem hi2
    exact hb _ hmem
  constructor
  · rw [match_eod_testBit g h i hi, s8_neg_decide _ hx]
  · rw [match_full_testBit g h i hi, ← s8_neg_decide _ hx]
    rcases lt_or_le (s8 (g.getD i 0)) 0 with hs | hs
    · rw [decide_eq_false (not_le.mpr hs), decide_eq_true hs]
      rfl
    · rw [decide_eq_true hs, decide_eq_false (not_lt.mpr hs)]
      rfl

theorem match_masks_top_bit_witness :
    ((Group.match_empty_or_deleted
        [255, 3, 128, 255, 7, 9, 200, 255, 0, 1, 2, 4, 8, 16, 32, 64]).testBit 2
      = ([255, 3, 128, 255, 7, 9, 200, 255, 0, 1, 2, 4, 8, 16, 32, 64].getD 2 0).testBit 7)
    ∧ ((Group.match_full
        [255, 3, 128, 255, 7, 9, 200, 255, 0, 1, 2, 4, 8, 16, 32, 64]).testBit 2
      = !([255, 3, 128, 255, 7, 9, 200, 255, 0, 1, 2, 4, 8, 16, 32, 64].getD 2 0).testBit 7) :=
  match_masks_top_bit _ (by decide) (by decide) 2 (by decide)

/-- C4: the conversion returns a group in which, lane by lane, every lane
with the top bit set (EMPTY stays EMPTY, DELETED becomes EMPTY) maps to
EMPTY, and every FULL lane (top bit clear, any 7-bit fragment) becomes
DELETED. -/
theorem convert_lane_map (g : List Nat) (h : g.length = 16)
    (hb : ∀ x ∈ g, x < 256) (i : Nat) (hi : i < 16) :
    (Group.convert_special_to_empty_and_full_to_deleted g).getD i 0
      = if (g.getD i 0).testBit 7 then Tag.EMPTY else Tag.DELETED := by
  have hi2 : i < g.length := by omega
  have hx : g.getD i 0 < 256 := by
    have hmem : g.getD i 0 ∈ g := by
      rw [List.getD_eq_getElem _ _ hi2]
      exact List.getElem_mem hi2
    exact hb _ hmem
  rw [convert_getD g h i hi, ← s8_neg_decide _ hx]
  by_cases hs : s8 (g.getD i 0) < 0 <;> simp [hs, Tag.EMPTY, Tag.DELETED]

theorem convert_lane_map_witness :
    (Group.convert_special_to_empty_and_full_to_deleted
        [255, 3, 128, 255, 7, 9, 200, 255, 0, 1, 2, 4, 8, 16, 32, 64]).getD 2 0
      = if ([255, 3, 128, 255, 7, 9, 200, 255, 0, 1, 2, 4, 8, 16, 32, 64].getD 2 0).testBit 7
          then Tag.EMPTY else Tag.DELETED :=
  convert_lane_map _ (by decide) (by decide) 2 (by decide)

/-- C5 counterexample: the conversion is not idempotent.  On the mixed
group with lanes EMPTY, DELETED, FULL(0), EMPTY, ..., a second application
differs from the first: the DELETED lanes produced from FULL lanes are
mapped on to EMPTY. -/
theorem convert_not_idempotent :
    Group.convert_special_to_empty_and_full_to_deleted
        (Group.convert_special_to_empty_and_full_to_deleted
          [255, 128, 0, 255, 255, 255, 255, 255, 255, 255, 255, 255, 255, 255, 255, 255])
      ≠ Group.convert_special_to_empty_and_full_to_deleted
          [255, 128, 0, 255, 255, 255, 255, 255, 255, 255, 255, 255, 255, 255, 255, 255] := by
  decide

/-- C5 (amended): applying the conversion to an all-EMPTY group yields all
EMPTY; applying it to an all-FULL group yields all DELETED; and applying it
twice to any 16-lane group yields the all-EMPTY group (the operation is not
idempotent: only EMPTY lanes are fixed points, DELETED lanes become
EMPTY). -/
theorem convert_known_inputs :
    Group.convert_special_to_empty_and_full_to_deleted (List.replicate 16 Tag.EMPTY)
        = List.replicate 16 Tag.EMPTY
    ∧ (∀ g : List Nat, g.length = 16 → (∀ x ∈ g, x < 128) →
        Group.convert_special_to_empty_and_full_to_deleted g
          = List.replicate 16 Tag.DELETED)
    ∧ ∀ g : List Nat, g.length = 16 →
        Group.convert_special_to_empty_and_full_to_deleted
            (Group.convert_special_to_empty_and_full_to_deleted g)
          = List.replicate 16 Tag.EMPTY := by
  refine ⟨by decide, ?_, ?_⟩
  · intro g hlen hfull
    rw [convert_eq_map g hlen]
    refine List.eq_replicate_iff.mpr ⟨by simpa using hlen, ?_⟩
    intro y hy
    obtain ⟨x, hx, rfl⟩ := List.mem_map.mp hy
    have hnn : ¬ s8 x < 0 := by
      unfold s8
      rw [if_pos (hfull x hx)]
      omega
    rw [if_neg hnn]
    decide
  · intro g hlen
    have hmap := convert_eq_map g hlen
    have hlen2 : (Group.convert_special_to_empty_and_full_to_deleted g).length = 16 := by
      rw [hmap]
      simpa using hlen
    rw [convert_eq_map _ hlen2]
    refine List.eq_replicate_iff.mpr ⟨by simpa using hlen2, ?_⟩
    intro y hy
    obtain ⟨x, hx, rfl⟩ := List.mem_map.mp hy
    rw [hmap] at hx
    obtain ⟨x0, _, rfl⟩ := List.mem_map.mp hx
    by_cases hs : s8 x0 < 0
    · rw [if_pos hs]
      decide
    · rw [if_neg hs]
      decide

theorem convert_known_inputs_witness :
    Group.convert_special_to_empty_and_full_to_deleted (List.replicate 16 0)
      = List.replicate 16 Tag.DELETED :=
  convert_known_inputs.2.1 (List.replicate 16 0) (by decide) (by decide)

/-- C6: `match_tag(tag)` sets a lane exactly when the lane's tag byte
equals the query tag byte (an exact byte compare, including the 7-bit
fragment); in particular a lane holding exactly that tag value is always
set (no false negatives). -/
theorem match_tag_exact (g : List Nat) (t : Nat) (h : g.length = 16)
    (i : Nat) (hi : i < 16) :
    (Group.match_tag g t).testBit i = true ↔ g.getD i 0 = t := by
  rw [match_tag_testBit g t h i hi]
  simp

theorem match_tag_exact_witness :
    (Group.match_tag
        [255, 3, 128, 255, 7, 9, 200, 255, 0, 1, 2, 4, 8, 16, 32, 64] 3).testBit 1 = true
    ↔ [255, 3, 128, 255, 7, 9, 200, 255, 0, 1, 2, 4, 8, 16, 32, 64].getD 1 0 = 3 :=
  match_tag_exact _ 3 (by decide) 1 (by decide)

/-- C7: `static_empty()` is a block of exactly `Group::WIDTH` tags, all of
them `EMPTY` (its address alignment is a memory-layout property outside
this embedding). -/
theorem static_empty_spec :
    Group.static_empty.length = Group.WIDTH
    ∧ ∀ x ∈ Group.static_empty, x = Tag.EMPTY := by
  decide

/-- C8: `Group::WIDTH` is the byte size of the 128-bit vector, 16, and is a
power of two. -/
theorem width_spec : Group.WIDTH = 16 ∧ ∃ k, Group.WIDTH = 2 ^ k :=
  ⟨rfl, 4, by decide⟩

/-- C9: for every 16-lane comparison vector whose lanes are `0x00` or
`0xFF`, `cmp_to_word` sets bit `i` exactly when lane `i` is `0xFF`, and
never sets a bit outside the 16 lane positions. -/
theorem cmp_to_word_spec (cmp : List Nat) (h : cmp.length = 16)
    (hv : ∀ x ∈ cmp, x = 0 ∨ x = 255) :
    (∀ i, i < 16 → ((cmp_to_word cmp).testBit i = true ↔ cmp.getD i 0 = 255))
    ∧ ∀ i, 16 ≤ i → (cmp_to_word cmp).testBit i = false := by
  constructor
  · intro i hi
    have h1 : cmp.map (fun x => if x = 255 then (255 : Nat) else 0) = cmp.map id := by
      apply List.map_congr_left
      intro x hx
      rcases hv x hx with rfl | rfl <;> simp
    have hmap : cmp.map (fun x => if x = 255 then (255 : Nat) else 0) = cmp := by
      rw [h1, List.map_id]
    conv_lhs => rw [← hmap]
    rw [cmp_to_word_testBit (fun x => x = 255) cmp h i hi]
    simp
  · intro i hi
    exact cmp_to_word_testBit_high cmp i hi

theorem cmp_to_word_spec_witness :
    ((cmp_to_word
        [255, 0, 0, 255, 0, 0, 0, 0, 0, 0, 0, 0, 0, 0, 0, 255]).testBit 3 = true
      ↔ [255, 0, 0, 255, 0, 0, 0, 0, 0, 0, 0, 0, 0, 0, 0, 255].getD 3 0 = 255)
    ∧ (cmp_to_word
        [255, 0, 0, 255, 0, 0, 0, 0, 0, 0, 0, 0, 0, 0, 0, 255]).testBit 20 = false :=
  ⟨(cmp_to_word_spec _ (by decide) (by decide)).1 3 (by decide),
    (cmp_to_word_spec _ (by decide) (by decide)).2 20 (by decide)⟩

/-- C10: the result of the conversion contains no FULL lane: `match_full`
on it is the zero mask and `match_empty_or_deleted` on it sets all 16
lanes. -/
theorem convert_no_full (g : List Nat) (h : g.length = 16) :
    Group.match_full (Group.convert_special_to_empty_and_full_to_deleted g) = 0
    ∧ Group.match_empty_or_deleted
        (Group.convert_special_to_empty_and_full_to_deleted g) = 65535 := by
  have hlen2 : (Group.convert_special_to_empty_and_full_to_deleted g).length = 16 := by
    rw [convert_eq_map g h]
    simpa using h
  have hlane : ∀ i, i < 16 →
      s8 ((Group.convert_special_to_empty_and_full_to_deleted g).getD i 0) < 0 := by
    intro i hi
    rw [convert_getD g h i hi]
    split <;> decide
  have h65535 : (65535 : Nat) = 2 ^ 16 - 1 := by norm_num
  constructor
  · apply Nat.eq_of_testBit_eq
    intro i
    rcases lt_or_le i 16 with hi | hi
    · rw [match_full_testBit _ hlen2 i hi, Nat.zero_testBit,
        decide_eq_false (not_le.mpr (hlane i hi))]
    · unfold Group.match_full
      rw [cmp_to_word_testBit_high _ i hi, Nat.zero_testBit]
  · apply Nat.eq_of_testBit_eq
    intro i
    rcases lt_or_le i 16 with hi | hi
    · rw [match_eod_testBit _ hlen2 i hi, h65535, Nat.testBit_two_pow_sub_one,
        decide_eq_true (hlane i hi), decide_eq_true hi]
    · unfold Group.match_empty_or_deleted
      rw [cmp_to_word_testBit_high _ i hi, h65535, Nat.testBit_two_pow_sub_one,
        decide_eq_false (not_lt.mpr hi)]

theorem convert_no_full_witness :
    Group.match_full
        (Group.convert_special_to_empty_and_full_to_deleted
          [255, 3, 128, 255, 7, 9, 200, 255, 0, 1, 2, 4, 8, 16, 32, 64]) = 0
    ∧ Group.match_empty_or_deleted
        (Group.convert_special_to_empty_and_full_to_deleted
          [255, 3, 128, 255, 7, 9, 200, 255, 0, 1, 2, 4, 8, 16, 32, 64]) = 65535 :=
  convert_no_full _ (by decide)

end Neon128
